import Mathlib

/-!
# Verification of the greedy min-max facility-location heuristic

Shallow embedding of `OptimisationModelQ3` from `src/or2/week6_q3.py`.

The Python code operates on two pandas DataFrames:
  * `distance_df` — a square table indexed by district labels (rows) with
    district labels as columns; entry `(i, c)` is the travel distance from
    district `i` to district `c`;
  * `population_df` — a table with a `Population` column, read positionally
    via `population_df['Population'].values` (a raw numpy array, so the
    weights align with distance rows *by position*, not by label).

We model a DataFrame of distances as `DistTable`: the ordered list of row
labels, the list of column labels, and a total entry function (only values
at `rows × cols` are ever read — see `step_ext`).  The population table is
a list of `(label, value)` pairs in table row order.  The heuristic reads
its real values only through multiplication and order comparisons, so they
are modelled by an arbitrary linearly ordered type `ρ` with a
multiplication (instantiable at `ℚ` or `ℝ`; the concrete examples use `ℤ`,
which the kernel can evaluate).

Partiality: a Python exception (pandas `KeyError` from selecting a missing
column, or the numpy/pandas error when the weight array can neither match
nor be broadcast against the distance rows — note that a *length-1* weight
array broadcasts silently, see `broadcastWeights`) is modelled as `none`.
A pandas `NaN` cell produced by reducing an empty selection is modelled as
the inner `none` of `Option ρ` (for costs) / `Option σ` (for chosen
labels), since `max`/`min` over an empty pandas selection yield `NaN`,
comparisons with `NaN` are `False`, and `Index.min` of an empty index is
`NaN`.
-/

set_option linter.unusedSectionVars false

namespace Week6Q3

/-- `pandas.Series.max` over a list of values: `none` on the empty series
(pandas yields `NaN`), otherwise the greatest element. -/
def seriesMax {α : Type} [LinearOrder α] : List α → Option α
  | [] => none
  | a :: t => some (t.foldl max a)

/-- `pandas.Series.min` (also `pandas.Index.min`) over a list of values:
`none` on the empty series, otherwise the least element. -/
def seriesMin {α : Type} [LinearOrder α] : List α → Option α
  | [] => none
  | a :: t => some (t.foldl min a)

/-- A distance DataFrame: ordered row labels (`distance_df.index`), column
labels (`distance_df.columns`) and the entry at each (row, column) pair.
Only entries at `rows × cols` are ever read by the model. -/
structure DistTable (σ ρ : Type) where
  rows : List σ
  cols : List σ
  entry : σ → σ → ρ

variable {σ ρ : Type} [LinearOrder σ] [LinearOrder ρ] [Mul ρ]

/-- `districts_without_ambulance = [x for x in distance_df.index if x not in m_assigned]`
(source line 48).  The assignment list may contain `none` entries (pandas
`NaN` appended when no district was available); `x not in m_assigned`
compares the label against each element, and a label never equals `NaN`. -/
def dwa (d : DistTable σ ρ) (st : List (Option σ)) : List σ :=
  d.rows.filter fun x => decide (some x ∉ st)

/-- The rows kept by `pwft_df.index.isin(districts_without_ambulance)`
(source line 52), with each row label paired positionally with its weight
from `population_df['Population'].values` (source line 51). -/
def pwftRows (d : DistTable σ ρ) (w : List ρ) (st : List (Option σ)) : List (σ × ρ) :=
  (d.rows.zip w).filter fun rw => decide (rw.1 ∈ dwa d st)

/-- Column `c` of `pwft_df.max(axis=0)` (source line 54): the maximum over
the kept rows of `distance(i, c) * weight(i)`. -/
def colMax (d : DistTable σ ρ) (w : List ρ) (st : List (Option σ)) (c : σ) : Option ρ :=
  seriesMax ((pwftRows d w st).map fun rw => d.entry rw.1 c * rw.2)

/-- The series `max_pwft_df` (source line 54): one entry per unassigned
candidate column, in column order. -/
def maxS (d : DistTable σ ρ) (w : List ρ) (st : List (Option σ)) : List (σ × Option ρ) :=
  (dwa d st).map fun c => (c, colMax d w st c)

/-- `max_pwft_df.min()` (source lines 57 and 61): pandas `min` skips `NaN`
values and yields `NaN` on an empty (or all-`NaN`) series. -/
def minOfMax (d : DistTable σ ρ) (w : List ρ) (st : List (Option σ)) : Option ρ :=
  seriesMin (((maxS d w st).map Prod.snd).filterMap id)

/-- Pandas `==` on possibly-`NaN` values: any comparison with `NaN` is
`False`. -/
def nanEq {ρ : Type} [DecidableEq ρ] : Option ρ → Option ρ → Bool
  | some a, some b => decide (a = b)
  | _, _ => false

/-- `max_pwft_df.index[max_pwft_df == max_pwft_df.min()].min()`
(source line 57): the least label among the candidates attaining the
minimal column maximum; `none` when no candidate matches (empty index,
pandas yields `NaN`). -/
def tiedMin (d : DistTable σ ρ) (w : List ρ) (st : List (Option σ)) : Option σ :=
  seriesMin (((maxS d w st).filter fun p => nanEq p.2 (minOfMax d w st)).map Prod.fst)

/-- Numpy broadcasting of the 1-D `Population` value array against each
`n`-row distance column at source line 51 (`x *
population_df['Population'].values`, applied per column by `apply`):
pandas runs no length pre-check for arithmetic (only for comparisons), so
numpy broadcasting semantics apply, followed by pandas wrapping the result
back onto the `n`-row column index.  The multiplication therefore succeeds
when the array's length equals `n` (positional weights), or when the array
has length 1, in which case its single value silently scales every row;
every other length combination raises (`(n,) × (k,)` broadcast failure, or
the length-`k` result failing to fit the 1-row index when `n = 1 < k`). -/
def broadcastWeights {ρ : Type} (w : List ρ) (n : Nat) : Option (List ρ) :=
  if w.length = n then some w
  else
    match w with
    | [a] => some (List.replicate n a)
    | _ => none

/-- `OptimisationModelQ3.heuristic_assignment` (source lines 32-63).
Returns `none` when the Python code raises: the numpy/pandas error when
the population value array cannot be broadcast against the distance rows
(line 51, see `broadcastWeights`), or the pandas `KeyError` when a
candidate column is missing from `distance_df.columns` (line 52).
Otherwise appends the chosen label (source line 58) and returns the new
assignment list together with `max_pwft_df.min()` (lines 61-63). -/
def heuristic_assignment (d : DistTable σ ρ) (pop : List (σ × ρ))
    (st : List (Option σ)) : Option (List (Option σ) × Option ρ) :=
  (broadcastWeights (pop.map Prod.snd) d.rows.length).bind fun w =>
    if ∀ c ∈ dwa d st, c ∈ d.cols then
      some (st ++ [tiedMin d w st], minOfMax d w st)
    else none

/-- The `while len(m_assigned) < self.m` loop of
`run_heuristic_optimisation` (source lines 25-26), threading the loop state
`(m_assigned, max_pwft)`.  Each successful call to `heuristic_assignment`
appends exactly one element (see `step_shape`), so starting from the empty
list the guard `len(m_assigned) < m` holds for exactly `m` iterations; we
therefore index the loop by the number of iterations it performs. -/
def assignLoop (d : DistTable σ ρ) (pop : List (σ × ρ)) :
    Nat → List (Option σ) × Option ρ → Option (List (Option σ) × Option ρ)
  | 0, p => some p
  | n + 1, p => (heuristic_assignment d pop p.1).bind (assignLoop d pop n)

/-- Final loop state of `run_heuristic_optimisation` (source lines 21-28):
the assignment list together with the last iteration's `max_pwft`.  For
`m = 0` the loop body never runs and the local `max_pwft` is unbound, so
line 30 raises `UnboundLocalError`: no result is produced (`none`). -/
def assign (d : DistTable σ ρ) (pop : List (σ × ρ)) (m : Nat) :
    Option (List (Option σ) × Option ρ) :=
  if m = 0 then none else assignLoop d pop m ([], none)

/-- `run_heuristic_optimisation` (source lines 17-30): the caller receives
`max_pwft` only (line 30). -/
def run_heuristic_optimisation (d : DistTable σ ρ) (pop : List (σ × ρ))
    (m : Nat) : Option (Option ρ) :=
  (assign d pop m).map Prod.snd

/-- The spec's "recomputed global minimax over the completed assignment"
(spec §4 result note, §9 second open question), stated from the spec's
words for comparison with the value the code actually reports: each site
`i` is served by its cheapest assigned unit, and the objective is the worst
such served cost over all sites.  The code never computes this. -/
def trueMinimax (d : DistTable σ ρ) (pop : List (σ × ρ))
    (assigned : List σ) : Option ρ :=
  seriesMax (pop.filterMap fun iw =>
    seriesMin (assigned.map fun c => d.entry iw.1 c * iw.2))

/-- Caller-visible effect model of one `heuristic_assignment` call.  The
source copies both frames on entry (lines 43-45: `distance_df =
distance_df.copy()`, `population_df = population_df.copy()`), and every
subsequent frame operation (`apply` line 51, `.loc[...].copy()` line 52,
`max` line 54, indexing line 57) allocates a fresh object, so the caller's
distance and population tables are returned unchanged; the caller's
`m_assigned` *list*, by contrast, is mutated in place by `append`
(line 58), so its post-state is the returned assignment list. -/
def heuristic_assignment_effects (d : DistTable σ ρ) (pop : List (σ × ρ))
    (st : List (Option σ)) :
    Option (List (Option σ) × Option ρ) × DistTable σ ρ × List (σ × ρ) × List (Option σ) :=
  match heuristic_assignment d pop st with
  | none => (none, d, pop, st)
  | some p => (some p, d, pop, p.1)

/-- The spec's 3-site scenario (§8): sites A, B, C are encoded as
1, 2, 3 (the encoding preserves the identifier order used by the tie-break
rule); distances A-B = 10, A-C = 20, B-C = 15, self-distance 0. -/
def exDist : DistTable ℕ ℤ :=
  ⟨[1, 2, 3], [1, 2, 3], fun i j =>
    if i = j then 0
    else if (i = 1 ∧ j = 2) ∨ (i = 2 ∧ j = 1) then 10
    else if (i = 1 ∧ j = 3) ∨ (i = 3 ∧ j = 1) then 20
    else 15⟩

/-- The spec scenario's population table: weight 1 for each of A, B, C. -/
def exPop : List (ℕ × ℤ) := [(1, 1), (2, 1), (3, 1)]

/-- A one-site table, used to exercise the `unit_count > number of sites`
behaviour. -/
def oneDist : DistTable ℕ ℤ := ⟨[1], [1], fun _ _ => 0⟩

/-- Population table for `oneDist`. -/
def onePop : List (ℕ × ℤ) := [(1, 1)]

/-- A two-site distance table whose second row label is missing from the
columns: selecting its column raises `KeyError` in the source. -/
def missingColDist : DistTable ℕ ℤ := ⟨[1, 2], [1], fun _ _ => 1⟩

/-- Population table matching `missingColDist`'s rows. -/
def twoPop : List (ℕ × ℤ) := [(1, 1), (2, 1)]

/-- A complete two-site distance table (both rows present as columns),
used to exercise the silent length-1 weight broadcast. -/
def twoDist : DistTable ℕ ℤ :=
  ⟨[1, 2], [1, 2], fun i j => if i = j then 0 else 3⟩

/-- A population table listing only site 1: site 2, though referenced by
`twoDist`, has no weight entry. -/
def shortPop : List (ℕ × ℤ) := [(1, 2)]

/-- A copy of `oneDist` whose entry function differs outside the table
(at row 5): observationally identical input data. -/
def offGridDist : DistTable ℕ ℤ :=
  ⟨[1], [1], fun i _ => if i = 5 then 7 else 0⟩

/-- A relabelled copy of the scenario population table: same values in the
same row order, completely different site identifiers. -/
def relabelPop : List (ℕ × ℤ) := [(7, 1), (8, 1), (9, 1)]

theorem foldl_max_choice {α : Type} [LinearOrder α] (t : List α) (a : α) :
    t.foldl max a = a ∨ t.foldl max a ∈ t := by
  induction t generalizing a with
  | nil => exact Or.inl rfl
  | cons b t ih =>
    rw [List.foldl_cons]
    rcases ih (max a b) with h | h
    · rcases max_choice a b with hm | hm
      · exact Or.inl (h.trans hm)
      · exact Or.inr (by rw [h, hm]; exact List.mem_cons_self _ _)
    · exact Or.inr (List.mem_cons_of_mem _ h)

theorem le_foldl_max_init {α : Type} [LinearOrder α] (t : List α) (a : α) :
    a ≤ t.foldl max a := by
  induction t generalizing a with
  | nil => exact le_refl a
  | cons b t ih => exact le_trans (le_max_left a b) (ih (max a b))

theorem le_foldl_max_of_mem {α : Type} [LinearOrder α] (t : List α) (a x : α)
    (hx : x ∈ t) : x ≤ t.foldl max a := by
  induction t generalizing a with
  | nil => exact absurd hx (List.not_mem_nil x)
  | cons b t ih =>
    rw [List.foldl_cons]
    rcases List.mem_cons.mp hx with rfl | hx
    · exact le_trans (le_max_right a x) (le_foldl_max_init t (max a x))
    · exact ih (max a b) hx

theorem seriesMax_mem {α : Type} [LinearOrder α] {l : List α} {v : α}
    (h : seriesMax l = some v) : v ∈ l := by
  cases l with
  | nil => simp [seriesMax] at h
  | cons a t =>
    simp only [seriesMax, Option.some.injEq] at h
    rcases foldl_max_choice t a with hc | hc
    · rw [← h, hc]; exact List.mem_cons_self _ _
    · rw [← h]; exact List.mem_cons_of_mem _ hc

theorem le_seriesMax {α : Type} [LinearOrder α] {l : List α} {v x : α}
    (h : seriesMax l = some v) (hx : x ∈ l) : x ≤ v := by
  cases l with
  | nil => exact absurd hx (List.not_mem_nil x)
  | cons a t =>
    simp only [seriesMax, Option.some.injEq] at h
    rcases List.mem_cons.mp hx with rfl | hx
    · rw [← h]; exact le_foldl_max_init t x
    · rw [← h]; exact le_foldl_max_of_mem t a x hx

theorem seriesMax_ne_nil {α : Type} [LinearOrder α] {l : List α}
    (h : l ≠ []) : ∃ v, seriesMax l = some v := by
  cases l with
  | nil => exact absurd rfl h
  | cons a t => exact ⟨t.foldl max a, rfl⟩

theorem foldl_min_choice {α : Type} [LinearOrder α] (t : List α) (a : α) :
    t.foldl min a = a ∨ t.foldl min a ∈ t := by
  induction t generalizing a with
  | nil => exact Or.inl rfl
  | cons b t ih =>
    rw [List.foldl_cons]
    rcases ih (min a b) with h | h
    · rcases min_choice a b with hm | hm
      · exact Or.inl (h.trans hm)
      · exact Or.inr (by rw [h, hm]; exact List.mem_cons_self _ _)
    · exact Or.inr (List.mem_cons_of_mem _ h)

theorem foldl_min_le_init {α : Type} [LinearOrder α] (t : List α) (a : α) :
    t.foldl min a ≤ a := by
  induction t generalizing a with
  | nil => exact le_refl a
  | cons b t ih => exact le_trans (ih (min a b)) (min_le_left a b)

theorem foldl_min_le_of_mem {α : Type} [LinearOrder α] (t : List α) (a x : α)
    (hx : x ∈ t) : t.foldl min a ≤ x := by
  induction t generalizing a with
  | nil => exact absurd hx (List.not_mem_nil x)
  | cons b t ih =>
    rw [List.foldl_cons]
    rcases List.mem_cons.mp hx with rfl | hx
    · exact le_trans (foldl_min_le_init t (min a x)) (min_le_right a x)
    · exact ih (min a b) hx

theorem seriesMin_mem {α : Type} [LinearOrder α] {l : List α} {v : α}
    (h : seriesMin l = some v) : v ∈ l := by
  cases l with
  | nil => simp [seriesMin] at h
  | cons a t =>
    simp only [seriesMin, Option.some.injEq] at h
    rcases foldl_min_choice t a with hc | hc
    · rw [← h, hc]; exact List.mem_cons_self _ _
    · rw [← h]; exact List.mem_cons_of_mem _ hc

theorem seriesMin_le {α : Type} [LinearOrder α] {l : List α} {v x : α}
    (h : seriesMin l = some v) (hx : x ∈ l) : v ≤ x := by
  cases l with
  | nil => exact absurd hx (List.not_mem_nil x)
  | cons a t =>
    simp only [seriesMin, Option.some.injEq] at h
    rcases List.mem_cons.mp hx with rfl | hx
    · rw [← h]; exact foldl_min_le_init t x
    · rw [← h]; exact foldl_min_le_of_mem t a x hx

theorem seriesMin_ne_nil {α : Type} [LinearOrder α] {l : List α}
    (h : l ≠ []) : ∃ v, seriesMin l = some v := by
  cases l with
  | nil => exact absurd rfl h
  | cons a t => exact ⟨t.foldl min a, rfl⟩

theorem mem_dwa {d : DistTable σ ρ} {st : List (Option σ)} {x : σ} :
    x ∈ dwa d st ↔ x ∈ d.rows ∧ some x ∉ st := by
  simp [dwa, List.mem_filter]

theorem dwa_nil (d : DistTable σ ρ) : dwa d [] = d.rows := by
  simp [dwa]

theorem dwa_eq_nil_iff {d : DistTable σ ρ} {st : List (Option σ)} :
    dwa d st = [] ↔ ∀ r ∈ d.rows, some r ∈ st := by
  simp [dwa, List.filter_eq_nil_iff]

theorem broadcastWeights_of_length {ρ : Type} {w : List ρ} {n : Nat}
    (hw : w.length = n) : broadcastWeights w n = some w := by
  unfold broadcastWeights
  rw [if_pos hw]

theorem broadcastWeights_singleton {ρ : Type} (a : ρ) (n : Nat) :
    broadcastWeights [a] n = some (List.replicate n a) := by
  unfold broadcastWeights
  by_cases h : ([a] : List ρ).length = n
  · have hn : n = 1 := by simpa using h.symm
    subst hn
    rw [if_pos h]
    rfl
  · rw [if_neg h]

theorem broadcastWeights_length {ρ : Type} {w w' : List ρ} {n : Nat}
    (h : broadcastWeights w n = some w') : w'.length = n := by
  unfold broadcastWeights at h
  by_cases hw : w.length = n
  · rw [if_pos hw] at h
    simp only [Option.some.injEq] at h
    rw [← h]
    exact hw
  · rw [if_neg hw] at h
    cases w with
    | nil => exact absurd h (Option.noConfusion)
    | cons a t =>
      cases t with
      | nil =>
        simp only [Option.some.injEq] at h
        rw [← h, List.length_replicate]
      | cons b t' => exact absurd h (Option.noConfusion)

theorem broadcastWeights_eq_none {ρ : Type} {w : List ρ} {n : Nat}
    (h1 : w.length ≠ n) (h2 : w.length ≠ 1) : broadcastWeights w n = none := by
  unfold broadcastWeights
  rw [if_neg h1]
  cases w with
  | nil => rfl
  | cons a t =>
    cases t with
    | nil => exact absurd rfl h2
    | cons b t' => rfl

theorem step_shape {d : DistTable σ ρ} {pop : List (σ × ρ)}
    {st l : List (Option σ)} {c : Option ρ}
    (h : heuristic_assignment d pop st = some (l, c)) :
    ∃ w, broadcastWeights (pop.map Prod.snd) d.rows.length = some w ∧
      l = st ++ [tiedMin d w st] ∧ c = minOfMax d w st ∧
      w.length = d.rows.length ∧ (∀ x ∈ dwa d st, x ∈ d.cols) := by
  unfold heuristic_assignment at h
  cases hbw : broadcastWeights (pop.map Prod.snd) d.rows.length with
  | none => rw [hbw] at h; exact absurd h (Option.noConfusion)
  | some w =>
    rw [hbw, Option.some_bind] at h
    by_cases hc : ∀ x ∈ dwa d st, x ∈ d.cols
    · rw [if_pos hc] at h
      obtain ⟨h1, h2⟩ := Prod.mk.injEq .. ▸ Option.some.injEq .. ▸ h
      exact ⟨w, rfl, h1.symm, h2.symm, broadcastWeights_length hbw, hc⟩
    · rw [if_neg hc] at h; exact absurd h (Option.noConfusion)

theorem step_eq_some {d : DistTable σ ρ} {pop : List (σ × ρ)}
    {st : List (Option σ)}
    (hw : (pop.map Prod.snd).length = d.rows.length)
    (hc : ∀ x ∈ dwa d st, x ∈ d.cols) :
    heuristic_assignment d pop st =
      some (st ++ [tiedMin d (pop.map Prod.snd) st],
            minOfMax d (pop.map Prod.snd) st) := by
  unfold heuristic_assignment
  rw [broadcastWeights_of_length hw, Option.some_bind, if_pos hc]

theorem step_fail_broadcast {d : DistTable σ ρ} {pop : List (σ × ρ)}
    {st : List (Option σ)}
    (hw : broadcastWeights (pop.map Prod.snd) d.rows.length = none) :
    heuristic_assignment d pop st = none := by
  unfold heuristic_assignment
  rw [hw]
  rfl

theorem step_fail_cols {d : DistTable σ ρ} {pop : List (σ × ρ)}
    {st : List (Option σ)}
    (hc : ¬ ∀ x ∈ dwa d st, x ∈ d.cols) :
    heuristic_assignment d pop st = none := by
  unfold heuristic_assignment
  cases hbw : broadcastWeights (pop.map Prod.snd) d.rows.length with
  | none => rfl
  | some w => rw [Option.some_bind, if_neg hc]

theorem exists_zip_of_mem {α β : Type} {l₁ : List α} {l₂ : List β} {x : α}
    (hx : x ∈ l₁) (hl : l₂.length = l₁.length) :
    ∃ y, (x, y) ∈ l₁.zip l₂ := by
  induction l₁ generalizing l₂ with
  | nil => exact absurd hx (List.not_mem_nil x)
  | cons a t ih =>
    cases l₂ with
    | nil => simp at hl
    | cons b s =>
      rcases List.mem_cons.mp hx with rfl | hx
      · exact ⟨b, List.mem_cons_self _ _⟩
      · obtain ⟨y, hy⟩ := ih hx (Nat.succ_injective hl)
        exact ⟨y, List.mem_cons_of_mem _ hy⟩

theorem mem_pwftRows {d : DistTable σ ρ} {w : List ρ} {st : List (Option σ)}
    {rw : σ × ρ} :
    rw ∈ pwftRows d w st ↔ rw ∈ d.rows.zip w ∧ rw.1 ∈ dwa d st := by
  simp [pwftRows, List.mem_filter]

theorem colMax_isSome {d : DistTable σ ρ} {w : List ρ} {st : List (Option σ)}
    {u : σ} (c : σ) (hw : w.length = d.rows.length) (hu : u ∈ dwa d st) :
    ∃ v, colMax d w st c = some v := by
  obtain ⟨y, hy⟩ := exists_zip_of_mem (mem_dwa.mp hu).1 hw
  apply seriesMax_ne_nil
  intro hnil
  have : (u, y) ∈ pwftRows d w st := mem_pwftRows.mpr ⟨hy, hu⟩
  have : d.entry u c * y ∈ (pwftRows d w st).map fun rw => d.entry rw.1 c * rw.2 :=
    List.mem_map.mpr ⟨(u, y), this, rfl⟩
  rw [hnil] at this
  exact absurd this (List.not_mem_nil _)

theorem colMax_mem {d : DistTable σ ρ} {w : List ρ} {st : List (Option σ)}
    {c : σ} {v : ρ} (h : colMax d w st c = some v) :
    ∃ rw ∈ d.rows.zip w, rw.1 ∈ dwa d st ∧ d.entry rw.1 c * rw.2 = v := by
  obtain ⟨rw, hrw, he⟩ := List.mem_map.mp (seriesMax_mem h)
  exact ⟨rw, (mem_pwftRows.mp hrw).1, (mem_pwftRows.mp hrw).2, he⟩

theorem le_colMax {d : DistTable σ ρ} {w : List ρ} {st : List (Option σ)}
    {c : σ} {v : ρ} (h : colMax d w st c = some v) {rw : σ × ρ}
    (hrw : rw ∈ d.rows.zip w) (hu : rw.1 ∈ dwa d st) :
    d.entry rw.1 c * rw.2 ≤ v :=
  le_seriesMax h (List.mem_map.mpr ⟨rw, mem_pwftRows.mpr ⟨hrw, hu⟩, rfl⟩)

theorem mem_maxS {d : DistTable σ ρ} {w : List ρ} {st : List (Option σ)}
    {p : σ × Option ρ} :
    p ∈ maxS d w st ↔ p.1 ∈ dwa d st ∧ p.2 = colMax d w st p.1 := by
  constructor
  · intro hp
    obtain ⟨c, hc, he⟩ := List.mem_map.mp hp
    cases he
    exact ⟨hc, rfl⟩
  · intro ⟨h1, h2⟩
    exact List.mem_map.mpr ⟨p.1, h1, Prod.ext rfl h2.symm⟩

/-- The main per-iteration lemma in the live case: when the weight vector
matches, every candidate column exists, and at least one district is still
unassigned, the step appends the least candidate attaining the minimal
worst-case cost. -/
theorem step_success {d : DistTable σ ρ} {pop : List (σ × ρ)}
    {st : List (Option σ)}
    (hw : (pop.map Prod.snd).length = d.rows.length)
    (hc : ∀ x ∈ dwa d st, x ∈ d.cols)
    (hne : dwa d st ≠ []) :
    ∃ b q, heuristic_assignment d pop st = some (st ++ [some b], some q) ∧
      b ∈ dwa d st ∧
      colMax d (pop.map Prod.snd) st b = some q ∧
      (∀ c ∈ dwa d st, ∃ v, colMax d (pop.map Prod.snd) st c = some v ∧ q ≤ v) ∧
      (∀ c ∈ dwa d st, colMax d (pop.map Prod.snd) st c = some q → b ≤ c) := by
  set w := pop.map Prod.snd with hwdef
  -- every candidate's column maximum exists
  have hall : ∀ c ∈ dwa d st, ∃ v, colMax d w st c = some v := by
    intro c hcmem
    exact colMax_isSome c hw hcmem
  -- the series of column maxima, with NaN values dropped by pandas min
  have hvals : ∀ v, v ∈ ((maxS d w st).map Prod.snd).filterMap id ↔
      ∃ c ∈ dwa d st, colMax d w st c = some v := by
    intro v
    constructor
    · intro hv
      obtain ⟨o, ho, hov⟩ := List.mem_filterMap.mp hv
      obtain ⟨p, hp, hpo⟩ := List.mem_map.mp ho
      obtain ⟨hp1, hp2⟩ := mem_maxS.mp hp
      cases hov
      exact ⟨p.1, hp1, by rw [← hp2, hpo]⟩
    · intro ⟨c, hcmem, hcv⟩
      exact List.mem_filterMap.mpr ⟨some v, List.mem_map.mpr
        ⟨(c, colMax d w st c), mem_maxS.mpr ⟨hcmem, rfl⟩, by rw [hcv]⟩, rfl⟩
  -- minOfMax is attained
  obtain ⟨c₀, hc₀⟩ := List.exists_mem_of_ne_nil _ hne
  obtain ⟨v₀, hv₀⟩ := hall c₀ hc₀
  obtain ⟨q, hq⟩ : ∃ q, minOfMax d w st = some q := by
    apply seriesMin_ne_nil
    intro hnil
    have := (hvals v₀).mpr ⟨c₀, hc₀, hv₀⟩
    rw [hnil] at this
    exact absurd this (List.not_mem_nil _)
  obtain ⟨cq, hcqmem, hcq⟩ := (hvals q).mp (seriesMin_mem hq)
  have hqle : ∀ c ∈ dwa d st, ∃ v, colMax d w st c = some v ∧ q ≤ v := by
    intro c hcmem
    obtain ⟨v, hv⟩ := hall c hcmem
    exact ⟨v, hv, seriesMin_le hq ((hvals v).mpr ⟨c, hcmem, hv⟩)⟩
  -- the tied index and its minimum
  have htied : ∀ x, x ∈ ((maxS d w st).filter fun p => nanEq p.2 (minOfMax d w st)).map Prod.fst ↔
      x ∈ dwa d st ∧ colMax d w st x = some q := by
    intro x
    constructor
    · intro hx
      obtain ⟨p, hp, hpx⟩ := List.mem_map.mp hx
      obtain ⟨hpm, hpe⟩ := List.mem_filter.mp hp
      obtain ⟨hp1, hp2⟩ := mem_maxS.mp hpm
      rw [hq] at hpe
      cases hpx
      refine ⟨hp1, ?_⟩
      rw [← hp2]
      cases hp2v : p.2 with
      | none => rw [hp2v] at hpe; simp [nanEq] at hpe
      | some v =>
        rw [hp2v] at hpe
        simp only [nanEq, decide_eq_true_eq] at hpe
        rw [hpe]
    · intro ⟨hx1, hx2⟩
      refine List.mem_map.mpr ⟨(x, colMax d w st x), List.mem_filter.mpr
        ⟨mem_maxS.mpr ⟨hx1, rfl⟩, ?_⟩, rfl⟩
      rw [hq, hx2]
      simp [nanEq]
  obtain ⟨b, hb⟩ : ∃ b, tiedMin d w st = some b := by
    apply seriesMin_ne_nil
    intro hnil
    have := (htied cq).mpr ⟨hcqmem, hcq⟩
    rw [hnil] at this
    exact absurd this (List.not_mem_nil _)
  obtain ⟨hbmem, hbq⟩ := (htied b).mp (seriesMin_mem hb)
  refine ⟨b, q, ?_, hbmem, hbq, hqle, ?_⟩
  · rw [step_eq_some hw hc, ← hwdef, hb, hq]
  · intro c hcmem hcval
    exact seriesMin_le hb ((htied c).mpr ⟨hcmem, hcval⟩)

/-- The per-iteration lemma in the exhausted case: when every district
already appears in the assignment, the candidate set is empty, pandas
reduces empty selections to `NaN`, and the step appends `NaN` with a `NaN`
cost — no error is raised. -/
theorem step_pad {d : DistTable σ ρ} {pop : List (σ × ρ)}
    {st : List (Option σ)}
    (hw : (pop.map Prod.snd).length = d.rows.length)
    (hall : ∀ r ∈ d.rows, some r ∈ st) :
    heuristic_assignment d pop st = some (st ++ [none], none) := by
  have hnil : dwa d st = [] := dwa_eq_nil_iff.mpr hall
  have hc : ∀ x ∈ dwa d st, x ∈ d.cols := by
    rw [hnil]; intro x hx; exact absurd hx (List.not_mem_nil x)
  rw [step_eq_some hw hc]
  have h1 : maxS d (pop.map Prod.snd) st = [] := by
    rw [maxS, hnil]; rfl
  have h2 : minOfMax d (pop.map Prod.snd) st = none := by
    rw [minOfMax, h1]; rfl
  have h3 : tiedMin d (pop.map Prod.snd) st = none := by
    rw [tiedMin, h1, h2]; rfl
  rw [h2, h3]

theorem assignLoop_one {d : DistTable σ ρ} {pop : List (σ × ρ)}
    (p : List (Option σ) × Option ρ) :
    assignLoop d pop 1 p = heuristic_assignment d pop p.1 := by
  rw [assignLoop]
  cases heuristic_assignment d pop p.1 with
  | none => rfl
  | some r => rfl

theorem assignLoop_add {d : DistTable σ ρ} {pop : List (σ × ρ)}
    (a b : Nat) (p : List (Option σ) × Option ρ) :
    assignLoop d pop (a + b) p =
      (assignLoop d pop a p).bind (assignLoop d pop b) := by
  induction a generalizing p with
  | zero =>
    rw [Nat.zero_add, assignLoop]
    rfl
  | succ n ih =>
    rw [Nat.succ_add, assignLoop, assignLoop]
    cases heuristic_assignment d pop p.1 with
    | none => rfl
    | some r =>
      simp only [Option.some_bind]
      exact ih r

/-- The pair returned by a run of `n ≥ 1` iterations is exactly the output
of the final call to `heuristic_assignment`. -/
theorem assignLoop_last {d : DistTable σ ρ} {pop : List (σ × ρ)} :
    ∀ (n : Nat) (p r : List (Option σ) × Option ρ), 1 ≤ n →
    assignLoop d pop n p = some r →
    ∃ prev, heuristic_assignment d pop prev = some r := by
  intro n
  induction n with
  | zero => intro p r h; exact absurd h (Nat.not_succ_le_zero 0)
  | succ n ih =>
    intro p r _ hrun
    cases n with
    | zero =>
      rw [assignLoop_one] at hrun
      exact ⟨p.1, hrun⟩
    | succ k =>
      rw [assignLoop] at hrun
      cases hstep : heuristic_assignment d pop p.1 with
      | none => rw [hstep] at hrun; exact absurd hrun (Option.noConfusion)
      | some mid =>
        rw [hstep] at hrun
        simp only [Option.some_bind] at hrun
        exact ih mid r (Nat.succ_le_succ (Nat.zero_le k)) hrun

/-- Loop invariant for valid inputs: starting from a duplicate-free list of
genuinely assigned districts, as long as the total stays within the number
of distinct districts every iteration succeeds, appends one new district,
and the final cost of a positive number of iterations is a real value. -/
theorem loop_valid {d : DistTable σ ρ} {pop : List (σ × ρ)}
    (hnd : d.rows.Nodup) (hsub : ∀ r ∈ d.rows, r ∈ d.cols)
    (hw : (pop.map Prod.snd).length = d.rows.length) :
    ∀ (n : Nat) (rs : List σ) (c0 : Option ρ), rs.Nodup →
    (∀ r ∈ rs, r ∈ d.rows) → rs.length + n ≤ d.rows.length →
    ∃ rs' c', assignLoop d pop n (rs.map some, c0) = some (rs'.map some, c') ∧
      rs'.length = rs.length + n ∧ rs'.Nodup ∧ (∀ r ∈ rs', r ∈ d.rows) ∧
      (1 ≤ n → ∃ q, c' = some q) ∧ (n = 0 → rs' = rs ∧ c' = c0) := by
  intro n
  induction n with
  | zero =>
    intro rs c0 hrs hmem _
    exact ⟨rs, c0, rfl, rfl, hrs, hmem, fun h => absurd h (Nat.not_succ_le_zero 0),
      fun _ => ⟨rfl, rfl⟩⟩
  | succ n ih =>
    intro rs c0 hrs hmem hlen
    have hne : dwa d (rs.map some) ≠ [] := by
      intro hnil
      have hsubrows : ∀ r ∈ d.rows, r ∈ rs := by
        intro r hr
        have := dwa_eq_nil_iff.mp hnil r hr
        obtain ⟨r', hr', he⟩ := List.mem_map.mp this
        exact (Option.some.injEq .. ▸ he : r' = r) ▸ hr'
      have : d.rows.length ≤ rs.length :=
        (hnd.subperm hsubrows).length_le
      omega
    have hc : ∀ x ∈ dwa d (rs.map some), x ∈ d.cols := by
      intro x hx
      exact hsub x (mem_dwa.mp hx).1
    obtain ⟨b, q, hstep, hbmem, _, _, _⟩ := step_success hw hc hne
    have hbrows : b ∈ d.rows := (mem_dwa.mp hbmem).1
    have hbnew : b ∉ rs := by
      intro hbin
      exact (mem_dwa.mp hbmem).2 (List.mem_map.mpr ⟨b, hbin, rfl⟩)
    have hcons : (rs.map some) ++ [some b] = (rs ++ [b]).map some := by
      rw [List.map_append]; rfl
    have hnodup : (rs ++ [b]).Nodup := by
      rw [List.nodup_append]
      exact ⟨hrs, List.nodup_singleton b, by
        intro a ha hb
        rw [List.mem_singleton] at hb
        exact hbnew (hb ▸ ha)⟩
    have hmem' : ∀ r ∈ rs ++ [b], r ∈ d.rows := by
      intro r hr
      rcases List.mem_append.mp hr with h | h
      · exact hmem r h
      · rw [List.mem_singleton] at h; exact h ▸ hbrows
    have hlen' : (rs ++ [b]).length + n ≤ d.rows.length := by
      rw [List.length_append, List.length_singleton]
      omega
    obtain ⟨rs', c', hrun, hl, hnd', hm', hq', h0'⟩ := ih (rs ++ [b]) (some q) hnodup hmem' hlen'
    refine ⟨rs', c', ?_, ?_, hnd', hm', fun _ => ?_, fun h => absurd h (Nat.succ_ne_zero n)⟩
    · have hunf : assignLoop d pop (n + 1) (rs.map some, c0) =
          (heuristic_assignment d pop (rs.map some)).bind (assignLoop d pop n) := rfl
      rw [hunf, hstep, Option.some_bind, hcons]
      exact hrun
    · rw [hl, List.length_append, List.length_singleton]
      omega
    · cases n with
      | zero =>
        obtain ⟨_, hc0⟩ := h0' rfl
        exact ⟨q, hc0⟩
      | succ k => exact hq' (Nat.succ_le_succ (Nat.zero_le k))

/-- Loop behaviour once every district is assigned: each further iteration
appends a `NaN` entry and the cost becomes `NaN`; no error is raised. -/
theorem loop_pad {d : DistTable σ ρ} {pop : List (σ × ρ)}
    (hw : (pop.map Prod.snd).length = d.rows.length) :
    ∀ (n : Nat) (st : List (Option σ)) (c0 : Option ρ),
    (∀ r ∈ d.rows, some r ∈ st) → 1 ≤ n →
    assignLoop d pop n (st, c0) = some (st ++ List.replicate n none, none) := by
  intro n
  induction n with
  | zero => intro st c0 _ h; exact absurd h (Nat.not_succ_le_zero 0)
  | succ n ih =>
    intro st c0 hall _
    have hstep := step_pad hw hall
    cases n with
    | zero =>
      rw [assignLoop_one]
      rw [hstep]
      rfl
    | succ k =>
      have hunf : assignLoop d pop (k + 1 + 1) (st, c0) =
          (heuristic_assignment d pop st).bind (assignLoop d pop (k + 1)) := rfl
      rw [hunf, hstep, Option.some_bind]
      have hall' : ∀ r ∈ d.rows, some r ∈ st ++ [none] := by
        intro r hr
        exact List.mem_append_left _ (hall r hr)
      have := ih (st ++ [none]) none hall' (Nat.succ_le_succ (Nat.zero_le k))
      rw [this, List.append_assoc]
      have : [(none : Option σ)] ++ List.replicate (k + 1) none =
          List.replicate (k + 2) none := by
        rw [List.replicate_succ]
        rfl
      rw [this]

/-- A single iteration reads the distance table only through its row
labels, its column labels, and its entries at `rows × cols`: two tables
agreeing on those produce identical iterations. -/
theorem step_ext {d₁ d₂ : DistTable σ ρ} {pop : List (σ × ρ)}
    (hr : d₁.rows = d₂.rows) (hcl : d₁.cols = d₂.cols)
    (he : ∀ r ∈ d₁.rows, ∀ c ∈ d₁.cols, d₁.entry r c = d₂.entry r c)
    (st : List (Option σ)) :
    heuristic_assignment d₁ pop st = heuristic_assignment d₂ pop st := by
  have hdwa : dwa d₁ st = dwa d₂ st := by
    rw [dwa, dwa, hr]
  unfold heuristic_assignment
  rw [hr]
  cases hbw : broadcastWeights (pop.map Prod.snd) d₂.rows.length with
  | none => rfl
  | some w =>
    simp only [Option.some_bind]
    by_cases hc : ∀ x ∈ dwa d₁ st, x ∈ d₁.cols
    · have hc₂ : ∀ x ∈ dwa d₂ st, x ∈ d₂.cols := by
        rw [← hdwa, ← hcl]; exact hc
      have hpw : pwftRows d₁ w st = pwftRows d₂ w st := by
        rw [pwftRows, pwftRows, hr, hdwa]
      have hcolmax : ∀ c ∈ dwa d₁ st, colMax d₁ w st c = colMax d₂ w st c := by
        intro c hcmem
        rw [colMax, colMax, hpw]
        congr 1
        apply List.map_congr_left
        intro rw hrw
        have hrow : rw.1 ∈ d₁.rows := by
          rw [hr]
          exact (List.of_mem_zip (mem_pwftRows.mp hrw).1).1
        rw [he rw.1 hrow c (hc c hcmem)]
      have hmaxS : maxS d₁ w st = maxS d₂ w st := by
        rw [maxS, maxS, hdwa]
        apply List.map_congr_left
        intro c hcmem
        rw [hcolmax c (hdwa ▸ hcmem)]
      have hmin : minOfMax d₁ w st = minOfMax d₂ w st := by
        rw [minOfMax, minOfMax, hmaxS]
      have htied : tiedMin d₁ w st = tiedMin d₂ w st := by
        rw [tiedMin, tiedMin, hmaxS, hmin]
      rw [if_pos hc, if_pos hc₂, hmin, htied]
    · have hc₂ : ¬ ∀ x ∈ dwa d₂ st, x ∈ d₂.cols := by
        rw [← hdwa, ← hcl]; exact hc
      rw [if_neg hc, if_neg hc₂]

theorem loop_ext {d₁ d₂ : DistTable σ ρ} {pop : List (σ × ρ)}
    (hr : d₁.rows = d₂.rows) (hcl : d₁.cols = d₂.cols)
    (he : ∀ r ∈ d₁.rows, ∀ c ∈ d₁.cols, d₁.entry r c = d₂.entry r c) :
    ∀ (n : Nat) (p : List (Option σ) × Option ρ),
    assignLoop d₁ pop n p = assignLoop d₂ pop n p := by
  intro n
  induction n with
  | zero => intro p; rfl
  | succ n ih =>
    intro p
    rw [assignLoop, assignLoop, step_ext hr hcl he p.1]
    cases heuristic_assignment d₂ pop p.1 with
    | none => rfl
    | some r => simp only [Option.some_bind]; exact ih r

/-- A single iteration reads the population table only through the value
column `population_df['Population'].values`: the site identifiers stored in
the population table are never consulted. -/
theorem step_pop_values {d : DistTable σ ρ} {pop₁ pop₂ : List (σ × ρ)}
    (hv : pop₁.map Prod.snd = pop₂.map Prod.snd) (st : List (Option σ)) :
    heuristic_assignment d pop₁ st = heuristic_assignment d pop₂ st := by
  unfold heuristic_assignment
  rw [hv]

theorem loop_pop_values {d : DistTable σ ρ} {pop₁ pop₂ : List (σ × ρ)}
    (hv : pop₁.map Prod.snd = pop₂.map Prod.snd) :
    ∀ (n : Nat) (p : List (Option σ) × Option ρ),
    assignLoop d pop₁ n p = assignLoop d pop₂ n p := by
  intro n
  induction n with
  | zero => intro p; rfl
  | succ n ih =>
    intro p
    rw [assignLoop, assignLoop, step_pop_values hv p.1]
    cases heuristic_assignment d pop₂ p.1 with
    | none => rfl
    | some r => simp only [Option.some_bind]; exact ih r

/-- When the population table lists exactly the distance rows (the
well-formed situation: same districts, same order), the positionally
aligned weight rows are just the population pairs of unassigned
districts. -/
theorem pwftRows_eq_filter {d : DistTable σ ρ} {pop : List (σ × ρ)}
    (hpop : pop.map Prod.fst = d.rows) (st : List (Option σ)) :
    pwftRows d (pop.map Prod.snd) st =
      pop.filter fun p => decide (p.1 ∈ dwa d st) := by
  rw [pwftRows, ← hpop, ← List.unzip_fst, ← List.unzip_snd, List.zip_unzip]

/-- Pair-level characterisation of a column maximum under label-aligned
tables: `colMax c` is the maximum over population rows `(i, wᵢ)` with `i`
unassigned of `distance(i, c) * wᵢ`. -/
theorem colMax_pairs {d : DistTable σ ρ} {pop : List (σ × ρ)}
    (hpop : pop.map Prod.fst = d.rows) {st : List (Option σ)} {c : σ} {v : ρ}
    (h : colMax d (pop.map Prod.snd) st c = some v) :
    (∃ p ∈ pop, p.1 ∈ dwa d st ∧ d.entry p.1 c * p.2 = v) ∧
    (∀ p ∈ pop, p.1 ∈ dwa d st → d.entry p.1 c * p.2 ≤ v) := by
  rw [colMax, pwftRows_eq_filter hpop] at h
  constructor
  · obtain ⟨p, hp, he⟩ := List.mem_map.mp (seriesMax_mem h)
    obtain ⟨hp1, hp2⟩ := List.mem_filter.mp hp
    exact ⟨p, hp1, by simpa using hp2, he⟩
  · intro p hp hu
    exact le_seriesMax h (List.mem_map.mpr
      ⟨p, List.mem_filter.mpr ⟨hp, by simpa using hu⟩, rfl⟩)

/-- Converse direction: a value that is attained and dominates all
unassigned population rows is the column maximum. -/
theorem colMax_of_pairs {d : DistTable σ ρ} {pop : List (σ × ρ)}
    (hpop : pop.map Prod.fst = d.rows) {st : List (Option σ)} {c : σ} {v : ρ}
    (hatt : ∃ p ∈ pop, p.1 ∈ dwa d st ∧ d.entry p.1 c * p.2 = v)
    (hub : ∀ p ∈ pop, p.1 ∈ dwa d st → d.entry p.1 c * p.2 ≤ v) :
    colMax d (pop.map Prod.snd) st c = some v := by
  have hw : (pop.map Prod.snd).length = d.rows.length := by
    rw [← hpop, List.length_map, List.length_map]
  obtain ⟨p₀, hp₀, hu₀, he₀⟩ := hatt
  obtain ⟨v', hv'⟩ := colMax_isSome c hw hu₀
  obtain ⟨⟨p₁, hp₁, hu₁, he₁⟩, hub'⟩ := colMax_pairs hpop hv'
  have h₁ : v' ≤ v := he₁ ▸ hub p₁ hp₁ hu₁
  have h₂ : v ≤ v' := he₀ ▸ hub' p₀ hp₀ hu₀
  rw [hv', le_antisymm h₁ h₂]

/-- **C1** — In every iteration, with `U = dwa d st` the unassigned
districts, the site appended is an argmin over candidates `c ∈ U` of
`max over i ∈ U of distance(i, c) * weight(i)`: the appended site `b` lies
in `U`, its cost `q` is attained by and dominates the unassigned rows
(inner maximum over unassigned sites only), and every candidate's
worst-case cost is `≥ q`.  Hypotheses: the population table lists exactly
the distance rows (in table order), every candidate has a distance column,
and some district is unassigned. -/
theorem greedy_step_argmin (d : DistTable σ ρ) (pop : List (σ × ρ))
    (st : List (Option σ))
    (hpop : pop.map Prod.fst = d.rows)
    (hc : ∀ x ∈ dwa d st, x ∈ d.cols)
    (hne : dwa d st ≠ []) :
    ∃ b q, heuristic_assignment d pop st = some (st ++ [some b], some q) ∧
      b ∈ dwa d st ∧
      (∃ p ∈ pop, p.1 ∈ dwa d st ∧ d.entry p.1 b * p.2 = q) ∧
      (∀ p ∈ pop, p.1 ∈ dwa d st → d.entry p.1 b * p.2 ≤ q) ∧
      (∀ c ∈ dwa d st, ∃ v,
        (∃ p ∈ pop, p.1 ∈ dwa d st ∧ d.entry p.1 c * p.2 = v) ∧
        (∀ p ∈ pop, p.1 ∈ dwa d st → d.entry p.1 c * p.2 ≤ v) ∧ q ≤ v) := by
  have hw : (pop.map Prod.snd).length = d.rows.length := by
    rw [← hpop, List.length_map, List.length_map]
  obtain ⟨b, q, hstep, hbmem, hbq, hmin, _⟩ := step_success hw hc hne
  obtain ⟨hatt, hub⟩ := colMax_pairs hpop hbq
  refine ⟨b, q, hstep, hbmem, hatt, hub, ?_⟩
  intro c hcmem
  obtain ⟨v, hv, hqv⟩ := hmin c hcmem
  obtain ⟨hattc, hubc⟩ := colMax_pairs hpop hv
  exact ⟨v, hattc, hubc, hqv⟩

/-- Witness for C1 at the spec's 3-site scenario (§8): all sites
unassigned, and the step chooses site B (= 2) with worst-case cost 15. -/
theorem greedy_step_argmin_witness :
    (exPop.map Prod.fst = exDist.rows ∧
     (∀ x ∈ dwa exDist ([] : List (Option ℕ)), x ∈ exDist.cols) ∧
     dwa exDist ([] : List (Option ℕ)) ≠ []) ∧
    heuristic_assignment exDist exPop [] = some ([some 2], some 15) ∧
    (∃ b q, heuristic_assignment exDist exPop [] = some ([] ++ [some b], some q) ∧
      b ∈ dwa exDist [] ∧
      (∃ p ∈ exPop, p.1 ∈ dwa exDist [] ∧ exDist.entry p.1 b * p.2 = q) ∧
      (∀ p ∈ exPop, p.1 ∈ dwa exDist [] → exDist.entry p.1 b * p.2 ≤ q) ∧
      (∀ c ∈ dwa exDist [], ∃ v,
        (∃ p ∈ exPop, p.1 ∈ dwa exDist [] ∧ exDist.entry p.1 c * p.2 = v) ∧
        (∀ p ∈ exPop, p.1 ∈ dwa exDist [] → exDist.entry p.1 c * p.2 ≤ v) ∧ q ≤ v)) :=
  ⟨⟨by decide, by decide, by decide⟩, by decide,
    greedy_step_argmin exDist exPop [] (by decide) (by decide) (by decide)⟩

/-- **C2** — Deterministic tie-break: whenever a candidate `c` also attains
the chosen minimal worst-case cost `q`, the appended site `b` satisfies
`b ≤ c` — the smallest identifier among tied candidates is chosen. -/
theorem tie_break_smallest (d : DistTable σ ρ) (pop : List (σ × ρ))
    (st : List (Option σ))
    (hpop : pop.map Prod.fst = d.rows)
    (hc : ∀ x ∈ dwa d st, x ∈ d.cols)
    (hne : dwa d st ≠ []) :
    ∃ b q, heuristic_assignment d pop st = some (st ++ [some b], some q) ∧
      b ∈ dwa d st ∧
      ∀ c ∈ dwa d st,
        ((∃ p ∈ pop, p.1 ∈ dwa d st ∧ d.entry p.1 c * p.2 = q) ∧
         (∀ p ∈ pop, p.1 ∈ dwa d st → d.entry p.1 c * p.2 ≤ q)) → b ≤ c := by
  have hw : (pop.map Prod.snd).length = d.rows.length := by
    rw [← hpop, List.length_map, List.length_map]
  obtain ⟨b, q, hstep, hbmem, _, _, htie⟩ := step_success hw hc hne
  refine ⟨b, q, hstep, hbmem, ?_⟩
  intro c hcmem ⟨hatt, hub⟩
  exact htie c hcmem (colMax_of_pairs hpop hatt hub)

/-- Witness for C2 at the spec's second scenario (§8, `unit_count = 2`):
after B (= 2) is assigned, candidates A (= 1) and C (= 3) tie at cost 20
and A, the smaller identifier, is chosen, so the two-unit run returns
`[B, A]` with final cost 20. -/
theorem tie_break_smallest_witness :
    (exPop.map Prod.fst = exDist.rows ∧
     (∀ x ∈ dwa exDist [some 2], x ∈ exDist.cols) ∧
     dwa exDist [some 2] ≠ []) ∧
    heuristic_assignment exDist exPop [some 2] = some ([some 2, some 1], some 20) ∧
    dwa exDist [some 2] = [1, 3] ∧
    assign exDist exPop 2 = some ([some 2, some 1], some 20) ∧
    (∃ b q, heuristic_assignment exDist exPop [some 2] = some ([some 2] ++ [some b], some q) ∧
      b ∈ dwa exDist [some 2] ∧
      ∀ c ∈ dwa exDist [some 2],
        ((∃ p ∈ exPop, p.1 ∈ dwa exDist [some 2] ∧ exDist.entry p.1 c * p.2 = q) ∧
         (∀ p ∈ exPop, p.1 ∈ dwa exDist [some 2] → exDist.entry p.1 c * p.2 ≤ q)) → b ≤ c) :=
  ⟨⟨by decide, by decide, by decide⟩, by decide, by decide, by decide,
    tie_break_smallest exDist exPop [some 2] (by decide) (by decide) (by decide)⟩

/-- **C3** — For every valid input the run produces both the ordered
assignment list (of length `unit_count`) and a final cost, and that final
cost is exactly the value computed by the *final* iteration (the output of
the last `heuristic_assignment` call, i.e. the minimum of that iteration's
per-candidate maxima `minOfMax`) — not a recomputed global minimax over the
completed assignment: at the spec's 3-site scenario with `unit_count = 2`
the reported cost is 20 while the recomputed global minimax of the
assignment `[B, A]` is 15. -/
theorem final_cost_is_last_iteration (d : DistTable σ ρ) (pop : List (σ × ρ))
    (m : Nat) (hnd : d.rows.Nodup) (hsub : ∀ r ∈ d.rows, r ∈ d.cols)
    (hw : (pop.map Prod.snd).length = d.rows.length)
    (hm1 : 1 ≤ m) (hmn : m ≤ d.rows.length) :
    (∃ sites q, assign d pop m = some (sites, some q) ∧
      run_heuristic_optimisation d pop m = some (some q) ∧
      sites.length = m ∧
      heuristic_assignment d pop sites.dropLast = some (sites, some q) ∧
      some q = minOfMax d (pop.map Prod.snd) sites.dropLast) ∧
    (assign exDist exPop 2 = some ([some 2, some 1], some 20) ∧
     trueMinimax exDist exPop [2, 1] = some 15 ∧ (20 : ℤ) ≠ 15) := by
  refine ⟨?_, by decide, by decide, by decide⟩
  obtain ⟨rs, c', hrun, hlen, _, _, hq, _⟩ :=
    loop_valid hnd hsub hw m [] none List.nodup_nil
      (fun r hr => absurd hr (List.not_mem_nil r)) (by simpa using hmn)
  obtain ⟨q, rfl⟩ := hq hm1
  have hm0 : m ≠ 0 := by omega
  have hassign : assign d pop m = some (rs.map some, some q) := by
    rw [assign, if_neg hm0]
    exact hrun
  obtain ⟨prev, hprev⟩ := assignLoop_last m ([], none) (rs.map some, some q) hm1 hrun
  obtain ⟨w, hbw, hshape, hcost, _, _⟩ := step_shape hprev
  obtain rfl : w = pop.map Prod.snd := by
    have hsome := broadcastWeights_of_length hw
    rw [hbw] at hsome
    exact Option.some.injEq .. ▸ hsome
  have hdrop : (rs.map some).dropLast = prev := by
    rw [hshape]
    simp
  refine ⟨rs.map some, q, hassign, ?_, by simpa using hlen, ?_, ?_⟩
  · rw [run_heuristic_optimisation, hassign]
    rfl
  · rw [hdrop]
    exact hprev
  · rw [hdrop, hcost]

/-- Witness for C3 at the spec's 3-site scenario with `unit_count = 2`. -/
theorem final_cost_is_last_iteration_witness :
    (exDist.rows.Nodup ∧ (∀ r ∈ exDist.rows, r ∈ exDist.cols) ∧
     (exPop.map Prod.snd).length = exDist.rows.length ∧
     1 ≤ 2 ∧ 2 ≤ exDist.rows.length) ∧
    ((∃ sites q, assign exDist exPop 2 = some (sites, some q) ∧
      run_heuristic_optimisation exDist exPop 2 = some (some q) ∧
      sites.length = 2 ∧
      heuristic_assignment exDist exPop sites.dropLast = some (sites, some q) ∧
      some q = minOfMax exDist (exPop.map Prod.snd) sites.dropLast) ∧
    (assign exDist exPop 2 = some ([some 2, some 1], some 20) ∧
     trueMinimax exDist exPop [2, 1] = some 15 ∧ (20 : ℤ) ≠ 15)) :=
  ⟨⟨by decide, by decide, by decide, by decide, by decide⟩,
    final_cost_is_last_iteration exDist exPop 2 (by decide) (by decide)
      (by decide) (by decide) (by decide)⟩

/-- **C4 counterexample** — The claim "for unit_count exceeding the number
of distinct sites the operation fails with an error before any result is
produced" is false: with one site and `unit_count = 2` the run produces a
result (`some _`, not a failure): the assignment is padded with a `NaN`
entry and the returned cost is `NaN`. -/
theorem unit_count_no_validation_cex :
    oneDist.rows.length < 2 ∧
    assign oneDist onePop 2 = some ([some 1, none], none) ∧
    run_heuristic_optimisation oneDist onePop 2 = some none := by
  refine ⟨by decide, by decide, by decide⟩

/-- **C4 (amended)** — The code performs no `unit_count` validation and
defines no `InvalidConfiguration` error.  What actually happens, for any
complete input (matching weight vector, duplicate-free rows, all row labels
present as columns): for `unit_count = 0` (the Python `< 1` case) the
driver does fail before producing any result, but with an unbound-variable
error, since the loop body never binds `max_pwft`; for
`1 ≤ unit_count ≤ number of sites` a real result is produced; and for
`unit_count > number of sites` no error is raised at all — the loop pads
the assignment with `NaN` entries to length `unit_count` and returns `NaN`
as the final cost. -/
theorem unit_count_no_validation (d : DistTable σ ρ) (pop : List (σ × ρ))
    (m : Nat) (hnd : d.rows.Nodup) (hsub : ∀ r ∈ d.rows, r ∈ d.cols)
    (hw : (pop.map Prod.snd).length = d.rows.length) :
    (run_heuristic_optimisation d pop 0 = none) ∧
    (1 ≤ m → m ≤ d.rows.length →
      ∃ sites q, assign d pop m = some (sites, some q) ∧ sites.length = m) ∧
    (d.rows.length < m →
      ∃ sites, assign d pop m = some (sites, none) ∧ sites.length = m ∧
        run_heuristic_optimisation d pop m = some none) := by
  refine ⟨?_, ?_, ?_⟩
  · rw [run_heuristic_optimisation, assign, if_pos rfl]
    rfl
  · intro hm1 hmn
    obtain ⟨rs, c', hrun, hlen, _, _, hq, _⟩ :=
      loop_valid hnd hsub hw m [] none List.nodup_nil
        (fun r hr => absurd hr (List.not_mem_nil r)) (by simpa using hmn)
    obtain ⟨q, rfl⟩ := hq hm1
    have hm0 : m ≠ 0 := by omega
    refine ⟨rs.map some, q, ?_, by simpa using hlen⟩
    rw [assign, if_neg hm0]
    exact hrun
  · intro hmn
    have hm0 : m ≠ 0 := by omega
    set n := d.rows.length with hn
    -- run the first n iterations to exhaust the sites, then pad
    obtain ⟨rs, c', hrun, hlen, hrsnd, hrsmem, _, _⟩ :=
      loop_valid hnd hsub hw n [] none List.nodup_nil
        (fun r hr => absurd hr (List.not_mem_nil r)) (by simp)
    simp only [List.map_nil] at hrun
    have hlen' : rs.length = n := by simpa using hlen
    have hall : ∀ r ∈ d.rows, some r ∈ rs.map some := by
      -- a duplicate-free sublist of `rows` of full length contains every row
      intro r hr
      have hperm : List.Perm rs d.rows :=
        (hrsnd.subperm hrsmem).perm_of_length_le (by omega)
      exact List.mem_map.mpr ⟨r, hperm.mem_iff.mpr hr, rfl⟩
    have hpad := loop_pad hw (m - n) (rs.map some) c' hall (by omega)
    have hsplit : assignLoop d pop m ([], none) =
        (assignLoop d pop n ([], none)).bind (assignLoop d pop (m - n)) := by
      rw [← assignLoop_add]
      congr 1
      omega
    refine ⟨rs.map some ++ List.replicate (m - n) none, ?_, ?_, ?_⟩
    · rw [assign, if_neg hm0, hsplit, hrun, Option.some_bind, hpad]
    · rw [List.length_append, List.length_map, List.length_replicate]
      omega
    · rw [run_heuristic_optimisation, assign, if_neg hm0, hsplit, hrun,
        Option.some_bind, hpad]
      rfl

/-- Witness for the amended C4 at a concrete one-site table with
`unit_count = 3 > 1` and, for the in-range conjunct, `unit_count = 1`. -/
theorem unit_count_no_validation_witness :
    (oneDist.rows.Nodup ∧ (∀ r ∈ oneDist.rows, r ∈ oneDist.cols) ∧
     (onePop.map Prod.snd).length = oneDist.rows.length) ∧
    ((run_heuristic_optimisation oneDist onePop 0 = none) ∧
    (1 ≤ 3 → 3 ≤ oneDist.rows.length →
      ∃ sites q, assign oneDist onePop 3 = some (sites, some q) ∧ sites.length = 3) ∧
    (oneDist.rows.length < 3 →
      ∃ sites, assign oneDist onePop 3 = some (sites, none) ∧ sites.length = 3 ∧
        run_heuristic_optimisation oneDist onePop 3 = some none)) :=
  ⟨⟨by decide, by decide, by decide⟩,
    unit_count_no_validation oneDist onePop 3 (by decide) (by decide) (by decide)⟩

/-- A step whose population value column is a single value `[a]` behaves
exactly like a step whose population table lists every distance row with
weight `a`: the lone value is silently broadcast over all rows
(source line 51). -/
theorem step_singleton_weight {d : DistTable σ ρ} {pop : List (σ × ρ)} {a : ρ}
    (hv : pop.map Prod.snd = [a]) (st : List (Option σ)) :
    heuristic_assignment d pop st =
      heuristic_assignment d (d.rows.map fun r => (r, a)) st := by
  unfold heuristic_assignment
  have h2 : (d.rows.map fun r => (r, a)).map Prod.snd =
      List.replicate d.rows.length a := by
    rw [List.map_map]
    exact List.map_const' d.rows a
  rw [hv, broadcastWeights_singleton, h2,
    broadcastWeights_of_length (List.length_replicate d.rows.length a)]

theorem loop_congr {d : DistTable σ ρ} {pop₁ pop₂ : List (σ × ρ)}
    (hstep : ∀ st, heuristic_assignment d pop₁ st = heuristic_assignment d pop₂ st) :
    ∀ (n : Nat) (p : List (Option σ) × Option ρ),
    assignLoop d pop₁ n p = assignLoop d pop₂ n p := by
  intro n
  induction n with
  | zero => intro p; rfl
  | succ n ih =>
    intro p
    rw [assignLoop, assignLoop, hstep p.1]
    cases heuristic_assignment d pop₂ p.1 with
    | none => rfl
    | some r => simp only [Option.some_bind]; exact ih r

/-- **C5 counterexample** — The claim "whenever some referenced site is
missing a weight entry, the operation fails fast rather than silently
defaulting" is false: `twoDist` references sites 1 and 2 but `shortPop`
carries a weight only for site 1, yet the run succeeds and returns a full
result, with the lone weight silently applied to site 2 as well (numpy
broadcasts the length-1 value array over both distance rows at source
line 51). -/
theorem incomplete_data_silent_default_cex :
    shortPop.map Prod.fst = [1] ∧ twoDist.rows = [1, 2] ∧
    (¬ ∃ p ∈ shortPop, p.1 = 2) ∧
    assign twoDist shortPop 1 = some ([some 1], some 6) ∧
    run_heuristic_optimisation twoDist shortPop 1 = some (some 6) ∧
    assign twoDist shortPop 1 = assign twoDist [(1, 2), (2, 2)] 1 :=
  ⟨by decide, by decide, by decide, by decide, by decide, by decide⟩

/-- **C5 (amended)** — A missing distance column for a referenced site
(pandas `KeyError` at line 52), or a weight vector that can neither match
the distance rows nor be broadcast (its length differs from the row count
*and* from 1: numpy error at line 51), makes the run fail in the first
iteration for any `unit_count ≥ 1`, with no partial result.  But a weight
table containing exactly one value does **not** fail, regardless of how
many sites are referenced: numpy silently broadcasts the single value over
every distance row, and the run behaves exactly as if every site had been
given that weight. -/
theorem incomplete_data_fails_amended (d : DistTable σ ρ) (pop : List (σ × ρ))
    (m : Nat) (hm : 1 ≤ m) :
    ((((pop.map Prod.snd).length ≠ d.rows.length ∧ (pop.map Prod.snd).length ≠ 1) ∨
      ∃ r ∈ d.rows, r ∉ d.cols) →
      assign d pop m = none ∧ run_heuristic_optimisation d pop m = none) ∧
    (∀ a : ρ, pop.map Prod.snd = [a] →
      assign d pop m = assign d (d.rows.map fun r => (r, a)) m ∧
      run_heuristic_optimisation d pop m =
        run_heuristic_optimisation d (d.rows.map fun r => (r, a)) m) := by
  obtain ⟨k, rfl⟩ : ∃ k, m = k + 1 := ⟨m - 1, by omega⟩
  constructor
  · intro hinc
    have hstep : heuristic_assignment d pop ([] : List (Option σ)) = none := by
      rcases hinc with ⟨h1, h2⟩ | ⟨r, hr, hrc⟩
      · exact step_fail_broadcast (broadcastWeights_eq_none h1 h2)
      · apply step_fail_cols
        intro hall
        exact hrc (hall r (by rw [dwa_nil]; exact hr))
    have hloop : assignLoop d pop (k + 1) (([] : List (Option σ)), (none : Option ρ)) = none := by
      have hunf : assignLoop d pop (k + 1) (([] : List (Option σ)), (none : Option ρ)) =
          (heuristic_assignment d pop []).bind (assignLoop d pop k) := rfl
      rw [hunf, hstep]
      rfl
    constructor
    · rw [assign, if_neg (Nat.succ_ne_zero k)]
      exact hloop
    · rw [run_heuristic_optimisation, assign, if_neg (Nat.succ_ne_zero k), hloop]
      rfl
  · intro a hv
    have hassign : assign d pop (k + 1) = assign d (d.rows.map fun r => (r, a)) (k + 1) := by
      rw [assign, assign, if_neg (Nat.succ_ne_zero k), if_neg (Nat.succ_ne_zero k),
        loop_congr (step_singleton_weight hv)]
    exact ⟨hassign,
      by rw [run_heuristic_optimisation, run_heuristic_optimisation, hassign]⟩

/-- Witness for the amended C5: the missing-column half at
(`missingColDist`, `twoPop`), and the silent-broadcast half at
(`twoDist`, `shortPop`), both with `unit_count = 1`. -/
theorem incomplete_data_fails_amended_witness :
    (1 ≤ 1 ∧ (((twoPop.map Prod.snd).length ≠ missingColDist.rows.length ∧
        (twoPop.map Prod.snd).length ≠ 1) ∨
      ∃ r ∈ missingColDist.rows, r ∉ missingColDist.cols)) ∧
    (assign missingColDist twoPop 1 = none ∧
     run_heuristic_optimisation missingColDist twoPop 1 = none) ∧
    (shortPop.map Prod.snd = [2] ∧
     assign twoDist shortPop 1 = assign twoDist (twoDist.rows.map fun r => (r, 2)) 1) :=
  ⟨⟨by decide, by decide⟩,
    (incomplete_data_fails_amended missingColDist twoPop 1 (by decide)).1 (by decide),
    by decide,
    ((incomplete_data_fails_amended twoDist shortPop 1 (by decide)).2 2 (by decide)).1⟩

/-- **C6** — Invariants of the assignment sequence on valid inputs
(`1 ≤ unit_count ≤ number of distinct sites`, complete tables): after `k`
iterations the sequence has exactly `k` entries and no duplicates; each
iteration appends exactly one new (not previously assigned) site and never
shrinks the sequence; and the final sequence has length `unit_count` with
no duplicates. -/
theorem assignment_invariants (d : DistTable σ ρ) (pop : List (σ × ρ))
    (m : Nat) (hnd : d.rows.Nodup) (hsub : ∀ r ∈ d.rows, r ∈ d.cols)
    (hw : (pop.map Prod.snd).length = d.rows.length)
    (hm1 : 1 ≤ m) (hmn : m ≤ d.rows.length) :
    (∀ k, k ≤ m → ∃ p, assignLoop d pop k ([], none) = some p ∧
      p.1.length = k ∧ p.1.Nodup) ∧
    (∀ k, k < m → ∀ p, assignLoop d pop k ([], none) = some p →
      ∃ b q, assignLoop d pop (k + 1) ([], none) = some (p.1 ++ [some b], some q) ∧
        some b ∉ p.1) ∧
    (∃ p, assign d pop m = some p ∧ p.1.length = m ∧ p.1.Nodup) := by
  have hstate : ∀ k, k ≤ m → ∃ rs : List σ, ∃ c' : Option ρ,
      assignLoop d pop k ([], none) = some (rs.map some, c') ∧
      rs.length = k ∧ rs.Nodup ∧ (1 ≤ k → ∃ q, c' = some q) := by
    intro k hk
    obtain ⟨rs, c', hrun, hlen, hrsnd, _, hq, _⟩ :=
      loop_valid hnd hsub hw k [] none List.nodup_nil
        (fun r hr => absurd hr (List.not_mem_nil r))
        (by simp only [List.length_nil]; omega)
    simp only [List.map_nil] at hrun
    exact ⟨rs, c', hrun, by simpa using hlen, hrsnd, hq⟩
  refine ⟨?_, ?_, ?_⟩
  · intro k hk
    obtain ⟨rs, c', hrun, hlen, hrsnd, _⟩ := hstate k hk
    exact ⟨(rs.map some, c'), hrun, by simpa using hlen,
      hrsnd.map (Option.some_injective σ)⟩
  · intro k hk p hp
    obtain ⟨rs', c', hrun', hlen', hrsnd', hq'⟩ := hstate (k + 1) (by omega)
    obtain ⟨q, rfl⟩ := hq' (by omega)
    have hcomp : assignLoop d pop (k + 1) ([], none) =
        heuristic_assignment d pop p.1 := by
      rw [assignLoop_add k 1, hp, Option.some_bind, assignLoop_one]
    have hstep : heuristic_assignment d pop p.1 = some (rs'.map some, some q) := by
      rw [← hcomp]; exact hrun'
    obtain ⟨w, _, hshape, _, _, _⟩ := step_shape hstep
    -- the appended element is a genuine district, read off the all-`some` list
    have hx : p.1 ++ [tiedMin d w p.1] = rs'.map some := hshape.symm
    have hxmem : tiedMin d w p.1 ∈ rs'.map some := by
      rw [← hx]
      exact List.mem_append_right _ (List.mem_singleton.mpr rfl)
    obtain ⟨b, _, hb⟩ := List.mem_map.mp hxmem
    have hnodup' : (rs'.map some).Nodup := hrsnd'.map (Option.some_injective σ)
    rw [← hb] at hx
    have hsplit : (p.1 ++ [some b]).Nodup := by
      rw [hx]
      exact hnodup'
    refine ⟨b, q, ?_, ?_⟩
    · rw [hcomp, hstep, ← hx]
    · intro hmem
      obtain ⟨h1, _, hdisj⟩ := List.nodup_append.mp hsplit
      exact hdisj hmem (List.mem_singleton.mpr rfl)
  · obtain ⟨rs, c', hrun, hlen, hrsnd, hq⟩ := hstate m (le_refl m)
    obtain ⟨q, rfl⟩ := hq hm1
    have hm0 : m ≠ 0 := by omega
    refine ⟨(rs.map some, some q), ?_, by simpa using hlen,
      hrsnd.map (Option.some_injective σ)⟩
    rw [assign, if_neg hm0]
    exact hrun

/-- Witness for C6 at the spec's 3-site scenario with `unit_count = 2`. -/
theorem assignment_invariants_witness :
    (exDist.rows.Nodup ∧ (∀ r ∈ exDist.rows, r ∈ exDist.cols) ∧
     (exPop.map Prod.snd).length = exDist.rows.length ∧
     1 ≤ 2 ∧ 2 ≤ exDist.rows.length) ∧
    ((∀ k, k ≤ 2 → ∃ p, assignLoop exDist exPop k ([], none) = some p ∧
      p.1.length = k ∧ p.1.Nodup) ∧
    (∀ k, k < 2 → ∀ p, assignLoop exDist exPop k ([], none) = some p →
      ∃ b q, assignLoop exDist exPop (k + 1) ([], none) = some (p.1 ++ [some b], some q) ∧
        some b ∉ p.1) ∧
    (∃ p, assign exDist exPop 2 = some p ∧ p.1.length = 2 ∧ p.1.Nodup)) :=
  ⟨⟨by decide, by decide, by decide, by decide, by decide⟩,
    assignment_invariants exDist exPop 2 (by decide) (by decide) (by decide)
      (by decide) (by decide)⟩

/-- **C7** — Determinism and input-extensionality: two calls whose inputs
carry the same observable data (identical row labels, column labels,
entries over `rows × cols`, population table and unit count) return
identical assignment states and identical final costs.  The entry
functions may differ outside the tables without affecting the result. -/
theorem deterministic_run (d₁ d₂ : DistTable σ ρ) (pop₁ pop₂ : List (σ × ρ))
    (m : Nat) (hr : d₁.rows = d₂.rows) (hcl : d₁.cols = d₂.cols)
    (he : ∀ r ∈ d₁.rows, ∀ c ∈ d₁.cols, d₁.entry r c = d₂.entry r c)
    (hp : pop₁ = pop₂) :
    assign d₁ pop₁ m = assign d₂ pop₂ m ∧
    run_heuristic_optimisation d₁ pop₁ m = run_heuristic_optimisation d₂ pop₂ m := by
  subst hp
  have hassign : assign d₁ pop₁ m = assign d₂ pop₁ m := by
    rw [assign, assign]
    by_cases h0 : m = 0
    · rw [if_pos h0, if_pos h0]
    · rw [if_neg h0, if_neg h0, loop_ext hr hcl he]
  exact ⟨hassign, by rw [run_heuristic_optimisation, run_heuristic_optimisation, hassign]⟩

/-- Witness for C7 (the two tables differ off-grid yet produce identical
results). -/
theorem deterministic_run_witness :
    (oneDist.rows = offGridDist.rows ∧ oneDist.cols = offGridDist.cols ∧
     (∀ r ∈ oneDist.rows, ∀ c ∈ oneDist.cols,
       oneDist.entry r c = offGridDist.entry r c) ∧
     oneDist.entry 5 5 ≠ offGridDist.entry 5 5) ∧
    (assign oneDist onePop 1 = assign offGridDist onePop 1 ∧
     run_heuristic_optimisation oneDist onePop 1 =
       run_heuristic_optimisation offGridDist onePop 1) :=
  ⟨⟨by decide, by decide, by decide, by decide⟩,
    deterministic_run oneDist offGridDist onePop onePop 1 (by decide)
      (by decide) (by decide) rfl⟩

/-- **C8** — No side effect on caller-owned inputs: the caller-visible
post-state of the distance table and of the population table equals the
pre-state, and the returned value is exactly the functional result.  (By
contrast the fourth component records that the caller's `m_assigned` list
*is* mutated — the claim is only about the matrix and the weights.) -/
theorem no_caller_mutation (d : DistTable σ ρ) (pop : List (σ × ρ))
    (st : List (Option σ)) :
    (heuristic_assignment_effects d pop st).2.1 = d ∧
    (heuristic_assignment_effects d pop st).2.2.1 = pop ∧
    (heuristic_assignment_effects d pop st).1 = heuristic_assignment d pop st := by
  unfold heuristic_assignment_effects
  cases heuristic_assignment d pop st with
  | none => exact ⟨rfl, rfl, rfl⟩
  | some p => exact ⟨rfl, rfl, rfl⟩

/-- **C9** — Termination: on valid inputs the loop state after `k`
iterations has length exactly `k`, so the guard `len(m_assigned) < m`
holds before each of the first `m` iterations and fails for the first time
after iteration `m`: the loop performs exactly `unit_count` iterations,
each appending one site, and `unit_count ≤ number of sites`. -/
theorem terminates_in_unit_count_steps (d : DistTable σ ρ)
    (pop : List (σ × ρ)) (m : Nat) (hnd : d.rows.Nodup)
    (hsub : ∀ r ∈ d.rows, r ∈ d.cols)
    (hw : (pop.map Prod.snd).length = d.rows.length)
    (hm1 : 1 ≤ m) (hmn : m ≤ d.rows.length) :
    m ≤ d.rows.length ∧
    (∀ k, k ≤ m → ∃ p, assignLoop d pop k ([], none) = some p ∧
      p.1.length = k) ∧
    (∃ p, assignLoop d pop m ([], none) = some p ∧ p.1.length = m ∧
      assign d pop m = some p) := by
  refine ⟨hmn, ?_, ?_⟩
  · intro k hk
    obtain ⟨rs, c', hrun, hlen, _, _, _, _⟩ :=
      loop_valid hnd hsub hw k [] none List.nodup_nil
        (fun r hr => absurd hr (List.not_mem_nil r))
        (by simp only [List.length_nil]; omega)
    simp only [List.map_nil] at hrun
    exact ⟨(rs.map some, c'), hrun, by simpa using hlen⟩
  · obtain ⟨rs, c', hrun, hlen, _, _, _, _⟩ :=
      loop_valid hnd hsub hw m [] none List.nodup_nil
        (fun r hr => absurd hr (List.not_mem_nil r))
        (by simp only [List.length_nil]; omega)
    simp only [List.map_nil] at hrun
    have hm0 : m ≠ 0 := by omega
    refine ⟨(rs.map some, c'), hrun, by simpa using hlen, ?_⟩
    rw [assign, if_neg hm0]
    exact hrun

/-- Witness for C9 at the spec's 3-site scenario with `unit_count = 3`
(the boundary `unit_count = number of sites`). -/
theorem terminates_in_unit_count_steps_witness :
    (exDist.rows.Nodup ∧ (∀ r ∈ exDist.rows, r ∈ exDist.cols) ∧
     (exPop.map Prod.snd).length = exDist.rows.length ∧
     1 ≤ 3 ∧ 3 ≤ exDist.rows.length) ∧
    (3 ≤ exDist.rows.length ∧
    (∀ k, k ≤ 3 → ∃ p, assignLoop exDist exPop k ([], none) = some p ∧
      p.1.length = k) ∧
    (∃ p, assignLoop exDist exPop 3 ([], none) = some p ∧ p.1.length = 3 ∧
      assign exDist exPop 3 = some p)) :=
  ⟨⟨by decide, by decide, by decide, by decide, by decide⟩,
    terminates_in_unit_count_steps exDist exPop 3 (by decide) (by decide)
      (by decide) (by decide) (by decide)⟩

/-- **C10** — Positional weight alignment: the weighted-cost table
multiplies the distance rows by the population values in table row order
(see `pwftRows`, which zips `distance_df.index` with
`population_df['Population'].values` positionally), so the population
table's site identifiers are never consulted: any two population tables
with the same values in the same row order — even with entirely different
site identifiers — produce identical iterations, identical assignment
states, and identical final costs. -/
theorem positional_weights (d : DistTable σ ρ) (pop₁ pop₂ : List (σ × ρ))
    (st : List (Option σ)) (m : Nat)
    (hv : pop₁.map Prod.snd = pop₂.map Prod.snd) :
    heuristic_assignment d pop₁ st = heuristic_assignment d pop₂ st ∧
    assign d pop₁ m = assign d pop₂ m ∧
    run_heuristic_optimisation d pop₁ m = run_heuristic_optimisation d pop₂ m := by
  have hassign : assign d pop₁ m = assign d pop₂ m := by
    rw [assign, assign]
    by_cases h0 : m = 0
    · rw [if_pos h0, if_pos h0]
    · rw [if_neg h0, if_neg h0, loop_pop_values hv]
  exact ⟨step_pop_values hv st, hassign,
    by rw [run_heuristic_optimisation, run_heuristic_optimisation, hassign]⟩

/-- Witness for C10: `exPop` and `relabelPop` share no identifier yet give
identical results on the 3-site scenario. -/
theorem positional_weights_witness :
    (exPop.map Prod.snd = relabelPop.map Prod.snd ∧
     exPop.map Prod.fst ≠ relabelPop.map Prod.fst ∧
     assign exDist relabelPop 2 = some ([some 2, some 1], some 20)) ∧
    (heuristic_assignment exDist exPop [] = heuristic_assignment exDist relabelPop [] ∧
     assign exDist exPop 2 = assign exDist relabelPop 2 ∧
     run_heuristic_optimisation exDist exPop 2 =
       run_heuristic_optimisation exDist relabelPop 2) :=
  ⟨⟨by decide, by decide, by decide⟩,
    positional_weights exDist exPop relabelPop [] 2 (by decide)⟩

end Week6Q3
